import Mathlib

/-!
Verification of the ChainLex framework index and inference engine.

This file gives a shallow embedding of the indexing, query, inference and
graph-traversal code of the repository (framework_index.py, chainlex_api.py,
enhanced_hypergraph.py) and proves or refutes the specified properties of
that code.

Modelling conventions:
* Python dicts are association lists with insertion order; assignment
  updates the first entry with the key in place (keeping its position) or
  appends a fresh entry at the end, exactly as a Python dict does.
* Python floats are modelled as exact rationals; the built-in round to four
  decimal places is modelled as rounding of the rational to the nearest
  multiple of one ten-thousandth.
* Python exceptions are modelled with Option.
-/

namespace ChainLex

/-- A record extracted from one define-statement of a Scheme source file:
the dict built at the end of the loop body of
FrameworkIndex._extract_functions_from_file (framework_index.py lines 101-107). -/
structure Func where
  name : String
  docstring : String
  cross_references : List String
  is_principle : Bool
  file : String
deriving Repr, DecidableEq

/-- A framework as stored in FrameworkIndex.frameworks (framework_index.py
lines 57-65): configuration metadata plus the records extracted from its
files. The functions field is the concatenation, in file order, of the
records extracted from each of the framework's files, as consumed by
_build_indices. -/
structure Framework where
  code : String
  name : String
  level : Nat
  domains : List String
  functions : List Func
deriving Repr, DecidableEq

/-- An entry of FrameworkIndex.function_index: the extracted record enriched
with its owning framework's code and display name (framework_index.py
lines 126-130). -/
structure IndexedFunc where
  framework : String
  framework_name : String
  name : String
  docstring : String
  cross_references : List String
  is_principle : Bool
  file : String
deriving Repr, DecidableEq

/-- An entry of FrameworkIndex.principle_index (framework_index.py
lines 142-145): the extracted record plus its framework code. -/
structure PrincipleEntry where
  framework : String
  name : String
  docstring : String
  cross_references : List String
  is_principle : Bool
  file : String
deriving Repr, DecidableEq

/-! ### Python dict model

A Python dict is insertion-ordered. Assignment `d[k] = v` replaces the value
of an existing key in place (the key keeps its original position) or appends
a new entry at the end. `collections.defaultdict(list)` with
`d[k].append(v)` appends to the existing entry's list in place, or creates
the key at the end with a singleton list. -/

/-- Python dict assignment `d[k] = v` on an insertion-ordered dict. -/
def dictSet {α : Type} (d : List (String × α)) (k : String) (v : α) : List (String × α) :=
  match d with
  | [] => [(k, v)]
  | (k', v') :: rest => if k' = k then (k, v) :: rest else (k', v') :: dictSet rest k v

/-- Python dict lookup `d.get(k)` returning None when absent. -/
def dictGet? {α : Type} (d : List (String × α)) (k : String) : Option α :=
  match d with
  | [] => none
  | (k', v) :: rest => if k' = k then some v else dictGet? rest k

/-- Python `defaultdict(list)` append `d[k].append(v)`. -/
def dictAppend {α : Type} (d : List (String × List α)) (k : String) (v : α) : List (String × List α) :=
  match d with
  | [] => [(k, [v])]
  | (k', vs) :: rest => if k' = k then (k', vs ++ [v]) :: rest else (k', vs) :: dictAppend rest k v

/-- Python `d.get(k, [])`. -/
def dictGetD {α : Type} (d : List (String × List α)) (k : String) : List α :=
  (dictGet? d k).getD []

/-! ### Index construction (FrameworkIndex._build_indices) -/

/-- The qualified name `f"{code}:{func['name']}"` (framework_index.py line 125). -/
def qualifiedName (fw : Framework) (f : Func) : String :=
  fw.code ++ ":" ++ f.name

/-- The function_index entry built for one record (framework_index.py
lines 126-130). -/
def mkIndexed (fw : Framework) (f : Func) : IndexedFunc :=
  { framework := fw.code
    framework_name := fw.name
    name := f.name
    docstring := f.docstring
    cross_references := f.cross_references
    is_principle := f.is_principle
    file := f.file }

/-- The principle_index entry built for one record (framework_index.py
lines 142-145). -/
def mkPrincipleEntry (fw : Framework) (f : Func) : PrincipleEntry :=
  { framework := fw.code
    name := f.name
    docstring := f.docstring
    cross_references := f.cross_references
    is_principle := f.is_principle
    file := f.file }

/-- The four indices built by FrameworkIndex._build_indices. -/
structure IndexState where
  function_index : List (String × IndexedFunc)
  domain_index : List (String × List String)
  cross_references : List (String × List String)
  principle_index : List (String × PrincipleEntry)
deriving Repr, DecidableEq

/-- The empty index state created in FrameworkIndex.__init__. -/
def initState : IndexState :=
  { function_index := [], domain_index := [], cross_references := [], principle_index := [] }

/-- The body of the per-record loop of _build_indices (framework_index.py
lines 124-145): index the record by qualified name, by each of its
framework's domains, by each of its cross-references, and, when it is a
principle (or its framework is level 1), by local name in principle_index. -/
def indexFunc (fw : Framework) (f : Func) (st : IndexState) : IndexState :=
  let full_name := qualifiedName fw f
  let fi := dictSet st.function_index full_name (mkIndexed fw f)
  let di := fw.domains.foldl (fun d dom => dictAppend d dom full_name) st.domain_index
  let cr := f.cross_references.foldl (fun d ref => dictAppend d ref full_name) st.cross_references
  let pi := if f.is_principle || fw.level == 1
    then dictSet st.principle_index f.name (mkPrincipleEntry fw f)
    else st.principle_index
  { function_index := fi, domain_index := di, cross_references := cr, principle_index := pi }

/-- FrameworkIndex._build_indices (framework_index.py lines 114-148): iterate
the frameworks in order and, within each, its records in file order. -/
def build_indices (fws : List Framework) : IndexState :=
  fws.foldl (fun st fw => fw.functions.foldl (fun st f => indexFunc fw f st) st) initState

/-- The flattened stream of (framework, record) pairs in the order
_build_indices processes them. -/
def pairs (fws : List Framework) : List (Framework × Func) :=
  fws.flatMap (fun fw => fw.functions.map (fun f => (fw, f)))

/-- All indexed records of the corpus, in processing (discovery) order. -/
def allIndexed (fws : List Framework) : List IndexedFunc :=
  (pairs fws).map (fun pf => mkIndexed pf.1 pf.2)

/-- The qualified names of the corpus, in processing order. -/
def qualifiedNames (fws : List Framework) : List String :=
  (pairs fws).map (fun pf => qualifiedName pf.1 pf.2)

/-! ### Queries (framework_index.py) -/

/-- FrameworkIndex.find_derived_rules (framework_index.py lines 212-217):
look the principle name up in the reverse cross-reference index and return
the function_index entry of each listed qualified name. The Python code
indexes function_index directly; every listed name is present there, so the
absent case of the lookup is unreachable on built indices. -/
def find_derived_rules (st : IndexState) (principle_name : String) : List IndexedFunc :=
  (dictGetD st.cross_references principle_name).filterMap
    (fun func_name => dictGet? st.function_index func_name)

/-- One element of the list FrameworkIndex.find_principles_by_domain builds
(framework_index.py lines 202-207). -/
structure PrincipleSummary where
  name : String
  framework : String
  docstring : String
  file : String
deriving Repr, DecidableEq

/-- The per-principle loop body of find_principles_by_domain
(framework_index.py lines 195-208): a principle is appended when some
record of the domain lists it among its cross-references and it is not
already in the accumulator; the Python loop breaks right after appending,
so at most one append happens per principle. A qualified name missing from
function_index contributes an empty cross-reference list, mirroring
`self.function_index.get(func_name, {})`. -/
def principleStep (st : IndexState) (domain_funcs : List String)
    (principles : List PrincipleSummary) (p : String × PrincipleEntry) : List PrincipleSummary :=
  let referenced := domain_funcs.any (fun func_name =>
    match dictGet? st.function_index func_name with
    | some f => f.cross_references.contains p.1
    | none => false)
  if referenced && !((principles.map PrincipleSummary.name).contains p.1) then
    principles ++ [{ name := p.1, framework := p.2.framework
                     docstring := p.2.docstring, file := p.2.file }]
  else principles

/-- FrameworkIndex.find_principles_by_domain (framework_index.py
lines 191-210). -/
def find_principles_by_domain (st : IndexState) (domain : String) : List PrincipleSummary :=
  let domain_funcs := dictGetD st.domain_index domain
  st.principle_index.foldl (principleStep st domain_funcs) []

/-! ### Keyword search (FrameworkIndex.search_functions) -/

/-- Substring containment on strings, Python's `sub in s`. -/
def strContains (s sub : String) : Bool :=
  (List.range (s.data.length + 1)).any (fun i => sub.data.isPrefixOf (s.data.drop i))

/-- Python str.lower: lowercase every character. Equal to String.toLower
(proved in str_lower_eq_toLower below) but written as a structural map over
the character list so that concrete instances compute. -/
def str_lower (s : String) : String :=
  ⟨s.data.map Char.toLower⟩

/-- One search result: the relevance tag plus the matched record, Python's
`{'relevance': ..., **func_data}` (framework_index.py lines 174-183). -/
structure SearchResult where
  relevance : String
  func : IndexedFunc
deriving Repr, DecidableEq

/-- The body of the search loop of search_functions (framework_index.py
lines 164-183) for one function_index entry: None when the entry is
filtered out or matches nothing, otherwise the tagged result. The guard
`if domain:` is Python truthiness: the domain restriction runs only when
the filter is present AND non-empty — a supplied empty-string filter is
skipped exactly like None. A framework code missing from the frameworks
table contributes no domains. -/
def searchEntry (fws : List Framework) (query_lower : String) (domain : Option String)
    (fd : IndexedFunc) : Option SearchResult :=
  let fwDomains : List String :=
    match fws.find? (fun fw => fw.code == fd.framework) with
    | some fw => fw.domains
    | none => []
  let domainOk : Bool :=
    match domain with
    | none => true
    | some d => if d = "" then true else fwDomains.contains d
  if !domainOk then none
  else if strContains (str_lower fd.name) query_lower then
    some { relevance := if query_lower == str_lower fd.name then "exact" else "partial",
           func := fd }
  else if strContains (str_lower fd.docstring) query_lower then
    some { relevance := "description", func := fd }
  else none

/-- The relevance ranking `{'exact': 0, 'partial': 1, 'description': 2}` with
default 3 (framework_index.py lines 186-187). -/
def relevance_order (r : String) : Nat :=
  if r = "exact" then 0 else if r = "partial" then 1 else if r = "description" then 2 else 3

/-- Stable insertion of an element into a list sorted by key: the element
goes before the first position whose key is not smaller, so equal keys keep
their original relative order. -/
def insertStable {α : Type} (key : α → Nat) (x : α) : List α → List α
  | [] => [x]
  | y :: ys => if key y < key x then y :: insertStable key x ys else x :: y :: ys

/-- Stable sort by key, modelling Python's stable list.sort(key=...). -/
def sortByKey {α : Type} (key : α → Nat) : List α → List α
  | [] => []
  | x :: xs => insertStable key x (sortByKey key xs)

/-- FrameworkIndex.search_functions (framework_index.py lines 150-189):
collect the matching entries in index order, then stable-sort them by
relevance rank. -/
def search_functions (fws : List Framework) (st : IndexState)
    (query : String) (domain : Option String) : List SearchResult :=
  let query_lower := str_lower query
  let results := st.function_index.foldl
    (fun results p => results ++ (searchEntry fws query_lower domain p.2).toList) []
  sortByKey (fun r => relevance_order r.relevance) results

/-! ### Inference chains (framework_index.py, chainlex_api.py) -/

/-- A node of an inference chain as built by build_inference_chain
(framework_index.py lines 263-266): either the principle node dict or the
rule node dict carrying the indexed record. -/
inductive ChainNode where
  | principleNode (node : String)
  | ruleNode (node : String) (data : IndexedFunc)
deriving Repr, DecidableEq

/-- FrameworkIndex.build_inference_chain (framework_index.py lines 245-269),
also exposed as InferenceAPI.chain (chainlex_api.py lines 116-118): scan
function_index in insertion order for the first entry whose local name
equals end_function (the loop breaks at the first name match); succeed with
the two-node chain exactly when that entry lists start_principle among its
cross-references, otherwise return None. -/
def build_inference_chain (st : IndexState) (start_principle end_function : String) :
    Option (List ChainNode) :=
  match st.function_index.find? (fun p => p.2.name == end_function) with
  | some p =>
    if p.2.cross_references.contains start_principle then
      some [ChainNode.principleNode start_principle, ChainNode.ruleNode end_function p.2]
    else none
  | none => none

/-- The per-type confidence factor table of InferenceAPI.confidence
(chainlex_api.py lines 136-141) with the 0.95 default of
`factors.get(inf_type, 0.95)`. -/
def inferenceFactor (t : String) : ℚ :=
  if t = "deductive" then 95/100
  else if t = "inductive" then 80/100
  else if t = "abductive" then 70/100
  else if t = "analogical" then 65/100
  else 95/100

/-- Rounding to four decimal places, Python's round(x, 4), modelled over
exact rationals as rounding to the nearest multiple of 1/10000. -/
def round4 (q : ℚ) : ℚ :=
  (round (q * 10000) : ℚ) / 10000

/-- InferenceAPI.confidence (chainlex_api.py lines 120-154). An empty chain
yields 0.0. Python's `if inference_types:` is false both for None and for
the empty list, so both fall back to the default per-edge factor
0.95 ** (len(chain) - 1); a non-empty type list multiplies one factor per
supplied type, regardless of the chain. -/
def confidence (chain : List ChainNode) (inference_types : Option (List String)) : ℚ :=
  if chain.isEmpty then 0
  else
    round4 (match inference_types with
      | some ts =>
        if ts.isEmpty then (95/100) ^ (chain.length - 1)
        else ts.foldl (fun c t => c * inferenceFactor t) 1
      | none => (95/100) ^ (chain.length - 1))

/-! ### Record extraction failure handling
(FrameworkIndex._extract_functions_from_file) -/

/-- The failure structure of _extract_functions_from_file (framework_index.py
lines 67-112). The whole extraction loop sits inside one try block whose
except clause prints the error and returns the empty list. The outcome of
the loop body on each define-match, in file order, is modelled abstractly
as an Option: some record on success, none when processing that one
definition raises. An exception aborts the loop, so records after the
failing one are never produced and records before it are discarded. -/
def runDefs : List (Option Func) → Option (List Func)
  | [] => some []
  | none :: _ => none
  | some f :: rest => (runDefs rest).map (fun fs => f :: fs)

/-- FrameworkIndex._extract_functions_from_file, abstracted over the
per-definition outcomes: the extracted records when every definition
processes cleanly, and the empty list as soon as any definition fails,
because the except clause around the whole loop returns []. -/
def extract_functions_from_file (outcomes : List (Option Func)) : List Func :=
  (runDefs outcomes).getD []

/-! ### Hypergraph path finding (enhanced_hypergraph.py)

EnhancedHypergraphAPI keeps a directed NetworkX graph, a node_index dict
from node names to internal node identifiers, and per-node attributes. The
node identifiers stored in the pickle are Python values (integers or
strings), so the lookup guard `if not start_id or not end_id` is false not
only for a missing key but also for the identifier 0 and the empty string. -/

/-- A Python node identifier as stored in node_index: an integer or a string. -/
inductive PyId where
  | intId (n : Int)
  | strId (s : String)
deriving Repr, DecidableEq

/-- Python truthiness of an identifier: 0 and the empty string are falsy. -/
def pyTruthy : PyId → Bool
  | PyId.intId n => n != 0
  | PyId.strId s => s != ""

/-- Python truthiness of an optional identifier: None is falsy. -/
def pyTruthy? : Option PyId → Bool
  | none => false
  | some v => pyTruthy v

/-- A node name as returned by path queries:
`self.graph.nodes[node_id].get('name', node_id)` yields the name attribute
when present and the raw identifier otherwise. -/
inductive NodeLabel where
  | str (s : String)
  | raw (i : PyId)
deriving Repr, DecidableEq

/-- The directed graph loaded from the hypergraph pickle: its edge list and
the optional name attribute of each node. -/
structure HGraph where
  edges : List (PyId × PyId)
  nodeName : PyId → Option String

/-- The successors of a node in edge-list order. -/
def successors (edges : List (PyId × PyId)) (n : PyId) : List PyId :=
  (edges.filter (fun e => decide (e.1 = n))).map (fun e => e.2)

/-- Modelled from the spec: networkx all_simple_paths, which
enhanced_hypergraph.py calls but whose code is not part of this repository.
Per the spec it enumerates every simple path (no repeated nodes) from the
current node to the target with at most cutoff further edges, depth-first
in adjacency order; a path stops at its first visit to the target. visited
is the path travelled so far, excluding the current node. -/
def simple_paths_from (edges : List (PyId × PyId)) (target : PyId) :
    Nat → List PyId → PyId → List (List PyId)
  | 0, visited, current =>
    if current = target then [visited ++ [current]] else []
  | cutoff + 1, visited, current =>
    if current = target then [visited ++ [current]]
    else
      (successors edges current).flatMap (fun nxt =>
        if (visited ++ [current]).contains nxt then []
        else simple_paths_from edges target cutoff (visited ++ [current]) nxt)

/-- Modelled from the spec: networkx all_simple_paths(graph, source, target,
cutoff) as a list of node-identifier paths. -/
def all_simple_paths (edges : List (PyId × PyId)) (source target : PyId) (cutoff : Nat) :
    List (List PyId) :=
  simple_paths_from edges target cutoff [] source

/-- The name a path query reports for a node identifier. -/
def nameOf (g : HGraph) (i : PyId) : NodeLabel :=
  match g.nodeName i with
  | some s => NodeLabel.str s
  | none => NodeLabel.raw i

/-- EnhancedHypergraphAPI.find_all_paths (enhanced_hypergraph.py
lines 107-136): look both node names up in node_index, return the empty
list when either lookup is falsy (missing key, identifier 0 or empty
string), otherwise enumerate the simple paths up to max_length edges and
translate identifiers to names. -/
def find_all_paths (g : HGraph) (node_index : List (String × PyId))
    (start end_ : String) (max_length : Nat) : List (List NodeLabel) :=
  let start_id := dictGet? node_index start
  let end_id := dictGet? node_index end_
  if !(pyTruthy? start_id) || !(pyTruthy? end_id) then []
  else
    match start_id, end_id with
    | some s, some e =>
      (all_simple_paths g.edges s e max_length).map (fun p => p.map (nameOf g))
    | _, _ => []

/-- Modelled from the spec: one round of breadth-first search. The queue
holds reversed paths (current node first); a dequeued path ending at the
target is the shortest path; otherwise the unvisited successors are
enqueued and marked visited. fuel bounds the number of dequeues, which a
run never exhausts because every node is enqueued at most once. -/
def bfsAux (edges : List (PyId × PyId)) (target : PyId) :
    Nat → List (List PyId) → List PyId → Option (List PyId)
  | 0, _, _ => none
  | _ + 1, [], _ => none
  | fuel + 1, p :: queue, visited =>
    match p with
    | [] => none
    | cur :: _ =>
      if cur = target then some p.reverse
      else
        let nexts := (successors edges cur).filter (fun n => !(visited.contains n))
        bfsAux edges target fuel (queue ++ nexts.map (fun n => n :: p)) (visited ++ nexts)

/-- Modelled from the spec: networkx shortest_path as unweighted
breadth-first search, returning None when no path exists (the wrapper
catches NetworkXNoPath and returns None). -/
def shortest_path? (edges : List (PyId × PyId)) (source target : PyId) :
    Option (List PyId) :=
  bfsAux edges target (2 * edges.length + 2) [[source]] [source]

/-- EnhancedHypergraphAPI.find_path (enhanced_hypergraph.py lines 80-105):
look both node names up in node_index, return None when either lookup is
falsy (missing key, identifier 0 or empty string), otherwise run the
shortest-path search and translate identifiers to names. -/
def find_path (g : HGraph) (node_index : List (String × PyId))
    (start end_ : String) : Option (List NodeLabel) :=
  let start_id := dictGet? node_index start
  let end_id := dictGet? node_index end_
  if !(pyTruthy? start_id) || !(pyTruthy? end_id) then none
  else
    match start_id, end_id with
    | some s, some e => (shortest_path? g.edges s e).map (fun p => p.map (nameOf g))
    | _, _ => none

/-! ### Derived views of the build pass, and concrete scenario data -/

/-- One step of the build pass on a (framework, record) pair. -/
def stepPair (st : IndexState) (pf : Framework × Func) : IndexState :=
  indexFunc pf.1 pf.2 st

/-- The per-principle reference test of find_principles_by_domain: some
qualified name of the domain's index list resolves to a record listing the
principle among its cross-references. -/
def referencedPred (st : IndexState) (domain_funcs : List String) (pname : String) : Bool :=
  domain_funcs.any (fun func_name =>
    match dictGet? st.function_index func_name with
    | some f => f.cross_references.contains pname
    | none => false)

/-- First-seen deduplication of a name sequence starting from an
accumulator: the key order of a Python dict populated in sequence. -/
def firstSeenFrom (acc : List String) (names : List String) : List String :=
  names.foldl (fun acc x => if acc.contains x then acc else acc ++ [x]) acc

/-- First-seen deduplication of a name sequence. -/
def firstSeen (names : List String) : List String := firstSeenFrom [] names

/-- The local names of the corpus records indexed as principles
(is_principle set, or owning framework of level 1), in discovery order. -/
def principleLocalNames (fws : List Framework) : List String :=
  ((pairs fws).filter (fun pf => pf.2.is_principle || pf.1.level == 1)).map
    (fun pf => pf.2.name)

/-- The indexed records whose owning framework declares the domain — the
records reachable through the domain's index list. -/
def recordsInDomain (fws : List Framework) (dom : String) : List IndexedFunc :=
  (pairs fws).filterMap (fun pf =>
    if pf.1.domains.contains dom then some (mkIndexed pf.1 pf.2) else none)

/-- A concrete well-formed record used in the extraction scenarios. -/
def demoFunc : Func :=
  { name := "contract-valid?", docstring := "Contract validity", cross_references :=
      ["pacta-sunt-servanda"], is_principle := false, file := "contract.scm" }

/-- The first of two records claiming the qualified name civ:contract-valid?. -/
def dupFuncA : Func :=
  { name := "contract-valid?", docstring := "first definition",
    cross_references := ["pacta-sunt-servanda"], is_principle := false, file := "a.scm" }

/-- The second record claiming the same qualified name. -/
def dupFuncB : Func :=
  { name := "contract-valid?", docstring := "second definition",
    cross_references := [], is_principle := false, file := "b.scm" }

/-- A framework whose two files both define contract-valid?. -/
def dupFramework : Framework :=
  { code := "civ", name := "Civil Law (ZA)", level := 2, domains := ["contract"],
    functions := [dupFuncA, dupFuncB] }

/-- Framework aaa defines x without cross-references. -/
def shadowFwA : Framework :=
  { code := "aaa", name := "Framework A", level := 2, domains := [],
    functions := [{ name := "x", docstring := "no refs", cross_references := [],
                    is_principle := false, file := "a.scm" }] }

/-- Framework bbb defines x with a cross-reference to p. -/
def shadowFwB : Framework :=
  { code := "bbb", name := "Framework B", level := 2, domains := [],
    functions := [{ name := "x", docstring := "refs p", cross_references := ["p"],
                    is_principle := false, file := "b.scm" }] }

/-- The level-1 framework of the witness corpus. -/
def wFw1 : Framework :=
  { code := "lv1", name := "Level 1 Principles", level := 1, domains := [],
    functions := [{ name := "pacta-sunt-servanda", docstring := "agreements must be kept",
                    cross_references := [], is_principle := true, file := "principles.scm" }] }

/-- The civil-law framework of the witness corpus: contract-valid? derives
from pacta-sunt-servanda, delict-liability? derives from nothing. -/
def wFw2 : Framework :=
  { code := "civ", name := "Civil Law (ZA)", level := 2, domains := ["contract"],
    functions := [{ name := "contract-valid?", docstring := "validity of a contract",
                    cross_references := ["pacta-sunt-servanda"], is_principle := false,
                    file := "contract.scm" },
                  { name := "delict-liability?", docstring := "delictual liability",
                    cross_references := [], is_principle := false, file := "delict.scm" }] }

/-- A two-node graph whose node A has internal identifier 0. -/
def demoGraphZero : HGraph :=
  { edges := [(PyId.intId 0, PyId.intId 1)]
    nodeName := fun i =>
      if i = PyId.intId 0 then some "A" else if i = PyId.intId 1 then some "B" else none }

/-- The node_index of demoGraphZero: A has the falsy identifier 0. -/
def demoIndexZero : List (String × PyId) :=
  [("A", PyId.intId 0), ("B", PyId.intId 1)]

/-- The cyclic scenario graph of the spec: nodes A,B,C,D are identifiers
1,2,3,4 with edges A to B, B to C, C to A and A to D. -/
def demoCycleGraph : HGraph :=
  { edges := [(PyId.intId 1, PyId.intId 2), (PyId.intId 2, PyId.intId 3),
              (PyId.intId 3, PyId.intId 1), (PyId.intId 1, PyId.intId 4)]
    nodeName := fun i =>
      if i = PyId.intId 1 then some "A" else if i = PyId.intId 2 then some "B"
      else if i = PyId.intId 3 then some "C"
      else if i = PyId.intId 4 then some "D" else none }

/-- The node_index of demoCycleGraph. -/
def demoCycleIndex : List (String × PyId) :=
  [("A", PyId.intId 1), ("B", PyId.intId 2), ("C", PyId.intId 3), ("D", PyId.intId 4)]

/-! ## Supporting lemmas: rounding -/

lemma round_mono {x y : ℚ} (h : x ≤ y) : round x ≤ round y := by
  rw [round_eq, round_eq]
  exact Int.floor_mono (by linarith)

lemma round4_mono {x y : ℚ} (h : x ≤ y) : round4 x ≤ round4 y := by
  unfold round4
  have h1 : round (x * 10000) ≤ round (y * 10000) :=
    round_mono (by nlinarith)
  have h2 : ((round (x * 10000) : ℤ) : ℚ) ≤ ((round (y * 10000) : ℤ) : ℚ) := by
    exact_mod_cast h1
  exact (div_le_div_iff_of_pos_right (by norm_num)).mpr h2

lemma round4_of_mul_eq (n : ℤ) {x : ℚ} (h : x * 10000 = (n : ℚ)) :
    round4 x = (n : ℚ) / 10000 := by
  unfold round4
  rw [h, round_intCast]

lemma round4_nineteen_twentieths : round4 ((95 : ℚ)/100) = 95/100 := by
  rw [round4_of_mul_eq 9500 (by norm_num)]
  norm_num

lemma round4_pow_two : round4 (((95 : ℚ)/100) ^ 2) = 9025/10000 := by
  rw [round4_of_mul_eq 9025 (by norm_num)]
  norm_num

lemma round4_one : round4 (1 : ℚ) = 1 := by
  rw [round4_of_mul_eq 10000 (by norm_num)]
  norm_num

lemma isEmpty_false_of_ne_nil {c : List ChainNode} (h : c ≠ []) : c.isEmpty = false := by
  cases c with
  | nil => exact absurd rfl h
  | cons x xs => rfl

/-! ## C3: confidence of the default (omitted inference_types) path -/

/-- C3: confidence of the empty chain is exactly 0; with inference_types
omitted, a non-empty chain's confidence is 0.95 to the number of edges
(length minus one) rounded to four decimals, so a two-node chain yields
0.95 and a three-node chain 0.9025; and for any fixed factor selection
(omitted, empty or non-empty type list, every factor at most one)
confidence never increases when a non-empty chain grows. -/
theorem confidence_spec :
    (∀ ty, confidence [] ty = 0)
  ∧ (∀ c : List ChainNode, c.length = 2 → confidence c none = 95/100)
  ∧ (∀ c : List ChainNode, c.length = 3 → confidence c none = 9025/10000)
  ∧ (∀ c : List ChainNode, c ≠ [] → confidence c none = round4 ((95/100) ^ (c.length - 1)))
  ∧ (∀ (ty : Option (List String)) (c₁ c₂ : List ChainNode),
      c₁ ≠ [] → c₁.length ≤ c₂.length → confidence c₂ ty ≤ confidence c₁ ty) := by
  have hdefault : ∀ c : List ChainNode, c ≠ [] →
      confidence c none = round4 ((95/100) ^ (c.length - 1)) := by
    intro c hc
    unfold confidence
    rw [isEmpty_false_of_ne_nil hc]
    rfl
  refine ⟨fun ty => rfl, ?_, ?_, hdefault, ?_⟩
  · intro c hlen
    have hc : c ≠ [] := by intro h; subst h; simp at hlen
    rw [hdefault c hc, hlen]
    simpa using round4_nineteen_twentieths
  · intro c hlen
    have hc : c ≠ [] := by intro h; subst h; simp at hlen
    rw [hdefault c hc, hlen]
    simpa using round4_pow_two
  · intro ty c₁ c₂ h1 hlen
    have h2 : c₂ ≠ [] := by
      intro h
      subst h
      simp only [List.length_nil, Nat.le_zero] at hlen
      exact h1 (List.eq_nil_of_length_eq_zero hlen)
    have hpow : ((95:ℚ)/100) ^ (c₂.length - 1) ≤ (95/100) ^ (c₁.length - 1) :=
      pow_le_pow_of_le_one (by norm_num) (by norm_num) (Nat.sub_le_sub_right hlen 1)
    unfold confidence
    rw [isEmpty_false_of_ne_nil h1, isEmpty_false_of_ne_nil h2]
    cases ty with
    | none => exact round4_mono hpow
    | some ts =>
      by_cases hts : ts.isEmpty
      · simp only [hts, if_true]
        exact round4_mono hpow
      · simp only [hts, if_false, Bool.false_eq_true]
        exact le_refl _

/-- Witness for C3 at concrete chains: a two-node chain scores 0.95 and a
three-node chain does not score above it. -/
theorem confidence_spec_witness :
    confidence [ChainNode.principleNode "a", ChainNode.principleNode "b"] none = 95/100
  ∧ confidence [ChainNode.principleNode "a", ChainNode.principleNode "b",
      ChainNode.principleNode "c"] none
    ≤ confidence [ChainNode.principleNode "a", ChainNode.principleNode "b"] none :=
  ⟨confidence_spec.2.1 _ rfl,
   confidence_spec.2.2.2.2 none _ _ (by decide) (by decide)⟩

/-! ## C9: confidence with an explicitly supplied inference_types list -/

/-- C9 counterexample: with the empty inference_types list explicitly
supplied, a three-node chain scores 0.9025 — the default per-edge factors,
not the rounded empty product 1.0 that one factor per supplied type would
give — because Python's `if inference_types:` treats the empty list like
None. -/
theorem confidence_types_cex :
    confidence [ChainNode.principleNode "a", ChainNode.principleNode "b",
      ChainNode.principleNode "c"] (some []) = 9025/10000
  ∧ round4 (([] : List String).foldl (fun c t => c * inferenceFactor t) 1) = 1
  ∧ ((9025 : ℚ)/10000) ≠ 1 := by
  refine ⟨?_, ?_, by norm_num⟩
  · unfold confidence
    simpa using round4_pow_two
  · simpa using round4_one

/-- C9 (amended): for every non-empty chain and every NON-EMPTY supplied
inference_types list, confidence is the product of the per-type factors
(unknown types contributing 0.95) rounded to four decimals, one factor per
supplied type, independent of the chain beyond its non-emptiness; an empty
supplied list instead behaves exactly like an omitted one. -/
theorem confidence_types_spec :
    ∀ (chain : List ChainNode) (ts : List String), chain ≠ [] → ts ≠ [] →
      (confidence chain (some ts) = round4 (ts.foldl (fun c t => c * inferenceFactor t) 1)
      ∧ ∀ chain₂ : List ChainNode, chain₂ ≠ [] →
          confidence chain (some ts) = confidence chain₂ (some ts)) := by
  intro chain ts hc hts
  have hts' : ts.isEmpty = false := by
    cases ts with
    | nil => exact absurd rfl hts
    | cons x xs => rfl
  have hval : ∀ c : List ChainNode, c ≠ [] →
      confidence c (some ts) = round4 (ts.foldl (fun c t => c * inferenceFactor t) 1) := by
    intro c hne
    unfold confidence
    rw [isEmpty_false_of_ne_nil hne]
    simp only [hts', if_false, Bool.false_eq_true]
  exact ⟨hval chain hc, fun chain₂ h₂ => (hval chain hc).trans (hval chain₂ h₂).symm⟩

/-- Witness for C9 (amended) at a concrete chain and type list. -/
theorem confidence_types_spec_witness :
    confidence [ChainNode.principleNode "a"] (some ["inductive"])
      = round4 (["inductive"].foldl (fun c t => c * inferenceFactor t) 1)
  ∧ confidence [ChainNode.principleNode "a"] (some ["inductive"])
      = confidence [ChainNode.principleNode "x", ChainNode.principleNode "y"]
          (some ["inductive"]) :=
  ⟨(confidence_types_spec _ _ (by decide) (by decide)).1,
   (confidence_types_spec _ _ (by decide) (by decide)).2 _ (by decide)⟩

/-! ## C5: failure isolation of record extraction -/

lemma runDefs_eq_none_of_mem {outcomes : List (Option Func)} (h : none ∈ outcomes) :
    runDefs outcomes = none := by
  induction outcomes with
  | nil => cases h
  | cons o rest ih =>
    cases o with
    | none => rfl
    | some f =>
      have : none ∈ rest := by
        cases h with
        | tail _ h' => exact h'
      simp [runDefs, ih this]

lemma runDefs_eq_some_of_all {outcomes : List (Option Func)}
    (h : ∀ o ∈ outcomes, o ≠ none) :
    runDefs outcomes = some (outcomes.filterMap id) := by
  induction outcomes with
  | nil => rfl
  | cons o rest ih =>
    cases o with
    | none => exact absurd rfl (h none (List.mem_cons_self _ _))
    | some f =>
      rw [List.filterMap_cons]
      simp only [runDefs, ih (fun o ho => h o (List.mem_cons_of_mem _ ho)), Option.map_some',
        id_eq]

/-- C5 counterexample: a document whose first definition fails to process
and whose second is well-formed yields zero records — the well-formed
remaining definition is lost, contradicting record-granularity isolation. -/
theorem extract_isolation_cex :
    extract_functions_from_file [none, some demoFunc] = []
  ∧ demoFunc ∉ extract_functions_from_file [none, some demoFunc] := by
  constructor
  · rfl
  · intro h
    simp [extract_functions_from_file, runDefs] at h

/-- C5 (amended): extraction failure is isolated at document granularity,
not record granularity: if processing any definition of a document fails,
the extractor returns zero records for that whole document; if every
definition processes cleanly, all its records are returned in file order. -/
theorem extract_isolation_spec :
    ∀ outcomes : List (Option Func),
      ((∃ o ∈ outcomes, o = none) → extract_functions_from_file outcomes = [])
    ∧ ((∀ o ∈ outcomes, o ≠ none) →
        extract_functions_from_file outcomes = outcomes.filterMap id) := by
  intro outcomes
  constructor
  · rintro ⟨o, ho, rfl⟩
    unfold extract_functions_from_file
    rw [runDefs_eq_none_of_mem ho]
    rfl
  · intro h
    unfold extract_functions_from_file
    rw [runDefs_eq_some_of_all h]
    rfl

/-- Witness for C5 (amended) at concrete documents. -/
theorem extract_isolation_spec_witness :
    extract_functions_from_file [none, some demoFunc] = []
  ∧ extract_functions_from_file [some demoFunc] = [some demoFunc].filterMap id :=
  ⟨(extract_isolation_spec [none, some demoFunc]).1 ⟨none, by simp, rfl⟩,
   (extract_isolation_spec [some demoFunc]).2 (by simp)⟩

/-! ## C10: falsy node identifiers are treated as absent -/

/-- C10: whenever the node_index lookup of the start or the end name is
falsy in Python's sense — the key is missing, or its identifier is the
integer 0 or the empty string — find_path reports no path (None) and
find_all_paths reports no paths (empty list), regardless of the graph. -/
theorem falsy_lookup_no_path (g : HGraph) (idx : List (String × PyId))
    (s e : String) (k : Nat)
    (h : pyTruthy? (dictGet? idx s) = false ∨ pyTruthy? (dictGet? idx e) = false) :
    find_path g idx s e = none ∧ find_all_paths g idx s e k = [] := by
  have hcond : (!(pyTruthy? (dictGet? idx s)) || !(pyTruthy? (dictGet? idx e))) = true := by
    cases h with
    | inl h' => rw [h']; rfl
    | inr h' => rw [h']; simp
  constructor
  · simp [find_path, hcond]
  · simp [find_all_paths, hcond]

/-- Witness for C10: node A exists in the graph, a path from A to B exists
at identifier level (both the shortest-path search and the simple-path
enumeration find it), yet find_path and find_all_paths report no path
because A's identifier 0 is falsy. -/
theorem falsy_lookup_no_path_witness :
    find_path demoGraphZero demoIndexZero "A" "B" = none
  ∧ find_all_paths demoGraphZero demoIndexZero "A" "B" 3 = []
  ∧ dictGet? demoIndexZero "A" = some (PyId.intId 0)
  ∧ shortest_path? demoGraphZero.edges (PyId.intId 0) (PyId.intId 1)
      = some [PyId.intId 0, PyId.intId 1]
  ∧ all_simple_paths demoGraphZero.edges (PyId.intId 0) (PyId.intId 1) 3
      = [[PyId.intId 0, PyId.intId 1]] :=
  ⟨(falsy_lookup_no_path demoGraphZero demoIndexZero "A" "B" 3 (Or.inl (by decide))).1,
   (falsy_lookup_no_path demoGraphZero demoIndexZero "A" "B" 3 (Or.inl (by decide))).2,
   by decide, by decide, by decide⟩

/-! ## C8: bounded, cycle-safe simple-path enumeration -/

lemma nodup_append_singleton {α : Type} {l : List α} {x : α} :
    (l ++ [x]).Nodup ↔ l.Nodup ∧ x ∉ l := by
  simp [List.nodup_append]

lemma simple_paths_sound (edges : List (PyId × PyId)) (target : PyId) :
    ∀ (cutoff : Nat) (visited : List PyId) (current : PyId),
      (visited ++ [current]).Nodup →
      ∀ p ∈ simple_paths_from edges target cutoff visited current,
        p.Nodup ∧ p.length ≤ visited.length + 1 + cutoff := by
  intro cutoff
  induction cutoff with
  | zero =>
    intro visited current h p hp
    unfold simple_paths_from at hp
    by_cases hc : current = target
    · rw [if_pos hc] at hp
      rw [List.mem_singleton] at hp
      subst hp
      exact ⟨h, by simp⟩
    · rw [if_neg hc] at hp
      cases hp
  | succ c ih =>
    intro visited current h p hp
    unfold simple_paths_from at hp
    by_cases hc : current = target
    · rw [if_pos hc] at hp
      rw [List.mem_singleton] at hp
      subst hp
      refine ⟨h, ?_⟩
      simp only [List.length_append, List.length_singleton]
      omega
    · rw [if_neg hc, List.mem_flatMap] at hp
      obtain ⟨nxt, _, hp⟩ := hp
      by_cases hmem : ((visited ++ [current]).contains nxt) = true
      · rw [if_pos hmem] at hp
        cases hp
      · rw [if_neg hmem] at hp
        have hnotmem : nxt ∉ visited ++ [current] := by
          intro hx
          exact hmem (List.elem_eq_true_of_mem hx)
        have hnd : ((visited ++ [current]) ++ [nxt]).Nodup :=
          nodup_append_singleton.mpr ⟨h, hnotmem⟩
        have hres := ih (visited ++ [current]) nxt hnd p hp
        refine ⟨hres.1, ?_⟩
        have := hres.2
        simp only [List.length_append, List.length_singleton] at this ⊢
        omega

/-- C8: the bounded all-paths enumeration is total (a well-defined
terminating function on every finite directed edge list, cycles included),
returns only simple paths (no repeated nodes) of at most maxLength edges,
and on the cyclic graph A to B to C to A plus A to D the query from A to D
with bound 3 returns exactly the single path A, D. -/
theorem all_paths_spec :
    (∀ (edges : List (PyId × PyId)) (source target : PyId) (cutoff : Nat)
       (p : List PyId), p ∈ all_simple_paths edges source target cutoff →
         p.Nodup ∧ p.length ≤ cutoff + 1)
  ∧ find_all_paths demoCycleGraph demoCycleIndex "A" "D" 3
      = [[NodeLabel.str "A", NodeLabel.str "D"]] := by
  constructor
  · intro edges source target cutoff p hp
    have h := simple_paths_sound edges target cutoff [] source (by simp) p hp
    refine ⟨h.1, ?_⟩
    have := h.2
    simp only [List.length_nil] at this
    omega
  · decide

/-- Witness for C8: the concrete path A, D found on the cyclic graph is
simple and within the bound. -/
theorem all_paths_spec_witness :
    [PyId.intId 1, PyId.intId 4].Nodup ∧ [PyId.intId 1, PyId.intId 4].length ≤ 3 + 1 :=
  all_paths_spec.1 demoCycleGraph.edges (PyId.intId 1) (PyId.intId 4) 3 _ (by decide)

/-! ## Supporting lemmas: the dict model -/

lemma dictGet?_dictSet {α : Type} (d : List (String × α)) (k q : String) (v : α) :
    dictGet? (dictSet d k v) q = if k = q then some v else dictGet? d q := by
  induction d with
  | nil => rfl
  | cons p rest ih =>
    obtain ⟨k', v'⟩ := p
    by_cases h : k' = k
    · subst h
      by_cases hq : k' = q
      · subst hq
        simp [dictSet, dictGet?]
      · simp [dictSet, dictGet?, hq]
    · by_cases hq : k' = q
      · subst hq
        have hk : ¬(k = k') := fun he => h he.symm
        simp [dictSet, dictGet?, h, hk]
      · simp [dictSet, dictGet?, h, hq, ih]

lemma keys_dictSet {α : Type} (d : List (String × α)) (k : String) (v : α) :
    (dictSet d k v).map Prod.fst
      = if (d.map Prod.fst).contains k then d.map Prod.fst else d.map Prod.fst ++ [k] := by
  induction d with
  | nil => simp [dictSet]
  | cons p rest ih =>
    obtain ⟨k', v'⟩ := p
    by_cases h : k' = k
    · subst h
      simp [dictSet]
    · simp only [dictSet, if_neg h, List.map_cons, List.contains_cons]
      have hbeq : (k == k') = false := by
        rw [beq_eq_false_iff_ne]
        exact fun he => h he.symm
      rw [hbeq]
      simp only [Bool.false_or]
      by_cases hc : (rest.map Prod.fst).contains k
      · rw [if_pos hc]
        rw [ih, if_pos hc]
      · rw [if_neg hc]
        rw [ih, if_neg hc]
        simp

lemma dictGetD_dictAppend {α : Type} (d : List (String × List α)) (k q : String) (v : α) :
    dictGetD (dictAppend d k v) q
      = if k = q then dictGetD d q ++ [v] else dictGetD d q := by
  induction d with
  | nil =>
    by_cases h : k = q
    · simp [dictAppend, dictGetD, dictGet?, h]
    · simp [dictAppend, dictGetD, dictGet?, h]
  | cons p rest ih =>
    obtain ⟨k', vs⟩ := p
    by_cases h : k' = k
    · subst h
      by_cases hq : k' = q
      · subst hq
        simp [dictAppend, dictGetD, dictGet?]
      · simp [dictAppend, dictGetD, dictGet?, hq]
    · by_cases hq : k' = q
      · subst hq
        have hk : ¬(k = k') := fun he => h he.symm
        simp [dictAppend, dictGetD, dictGet?, h, hk]
      · have h1 : dictGetD (dictAppend ((k', vs) :: rest) k v) q
            = dictGetD (dictAppend rest k v) q := by
          simp [dictAppend, dictGetD, dictGet?, h, hq]
        have h2 : dictGetD ((k', vs) :: rest) q = dictGetD rest q := by
          simp [dictGetD, dictGet?, hq]
        rw [h1, h2]
        exact ih

lemma keysFold {α : Type} (ks : List String) (d : List (String × List α)) (n : α)
    (q : String) :
    dictGetD (ks.foldl (fun d k => dictAppend d k n) d) q
      = dictGetD d q ++ List.replicate (ks.count q) n := by
  induction ks generalizing d with
  | nil => simp
  | cons k ks ih =>
    rw [List.foldl_cons, ih, dictGetD_dictAppend, List.count_cons]
    by_cases h : k = q
    · rw [if_pos h]
      have hb : (k == q) = true := by rw [beq_iff_eq]; exact h
      rw [hb]
      simp [List.replicate_succ, List.append_assoc]
    · rw [if_neg h]
      have hb : (k == q) = false := by rw [beq_eq_false_iff_ne]; exact h
      rw [hb]
      simp

/-! ## Supporting lemmas: the build pass as a fold over the record stream -/

lemma indexFunc_fi (fw : Framework) (f : Func) (st : IndexState) :
    (indexFunc fw f st).function_index
      = dictSet st.function_index (qualifiedName fw f) (mkIndexed fw f) := rfl

lemma indexFunc_di (fw : Framework) (f : Func) (st : IndexState) :
    (indexFunc fw f st).domain_index
      = fw.domains.foldl (fun d dom => dictAppend d dom (qualifiedName fw f))
          st.domain_index := rfl

lemma indexFunc_cr (fw : Framework) (f : Func) (st : IndexState) :
    (indexFunc fw f st).cross_references
      = f.cross_references.foldl (fun d ref => dictAppend d ref (qualifiedName fw f))
          st.cross_references := rfl

lemma indexFunc_pi (fw : Framework) (f : Func) (st : IndexState) :
    (indexFunc fw f st).principle_index
      = if f.is_principle || fw.level == 1
          then dictSet st.principle_index f.name (mkPrincipleEntry fw f)
          else st.principle_index := rfl

lemma build_indices_eq (fws : List Framework) :
    build_indices fws = (pairs fws).foldl stepPair initState := by
  suffices h : ∀ (fws : List Framework) (st : IndexState),
      fws.foldl (fun st fw => fw.functions.foldl (fun st f => indexFunc fw f st) st) st
        = (pairs fws).foldl stepPair st by
    exact h fws initState
  intro fws
  induction fws with
  | nil => intro st; rfl
  | cons fw rest ih =>
    intro st
    have hp : pairs (fw :: rest) = fw.functions.map (fun f => (fw, f)) ++ pairs rest := by
      simp [pairs]
    rw [List.foldl_cons, hp, List.foldl_append, List.foldl_map, ih]
    rfl

lemma fi_foldl_last (L : List (Framework × Func)) :
    ∀ (st : IndexState) (q : String),
    dictGet? ((L.foldl stepPair st).function_index) q
      = Option.or
          (((L.filter (fun pf => qualifiedName pf.1 pf.2 == q)).getLast?).map
            (fun pf => mkIndexed pf.1 pf.2))
          (dictGet? st.function_index q) := by
  induction L with
  | nil => intro st q; rfl
  | cons pf L ih =>
    intro st q
    rw [List.foldl_cons, ih]
    have hstep : dictGet? ((stepPair st pf).function_index) q
        = if qualifiedName pf.1 pf.2 = q then some (mkIndexed pf.1 pf.2)
          else dictGet? st.function_index q := by
      rw [stepPair, indexFunc_fi, dictGet?_dictSet]
    rw [hstep, List.filter_cons]
    by_cases h : qualifiedName pf.1 pf.2 = q
    · have hbeq : (qualifiedName pf.1 pf.2 == q) = true := by rw [beq_iff_eq]; exact h
      rw [hbeq, if_pos h]
      simp only [if_true]
      cases hL : (L.filter (fun pf => qualifiedName pf.1 pf.2 == q)) with
      | nil => simp
      | cons x xs =>
        rw [List.getLast?_cons_cons]
        cases hlast : (x :: xs).getLast? with
        | none => simp [List.getLast?] at hlast
        | some y => simp
    · have hbeq : (qualifiedName pf.1 pf.2 == q) = false := by
        rw [beq_eq_false_iff_ne]; exact h
      rw [hbeq, if_neg h]
      simp only [Bool.false_eq_true, if_false]

lemma fiKeys_nodup (L : List (Framework × Func)) :
    ∀ st : IndexState, (st.function_index.map Prod.fst).Nodup →
      (((L.foldl stepPair st).function_index).map Prod.fst).Nodup := by
  induction L with
  | nil => intro st h; exact h
  | cons pf L ih =>
    intro st h
    rw [List.foldl_cons]
    apply ih
    rw [stepPair, indexFunc_fi, keys_dictSet]
    by_cases hc : (st.function_index.map Prod.fst).contains (qualifiedName pf.1 pf.2)
    · rw [if_pos hc]; exact h
    · rw [if_neg hc]
      refine nodup_append_singleton.mpr ⟨h, ?_⟩
      intro hmem
      exact hc (List.elem_eq_true_of_mem hmem)

/-! ## C1: duplicate qualified names during index construction -/

/-- C1 counterexample: two records with the same qualified name
civ:contract-valid? are indexed; the build silently keeps the LATER record
(the two records differ), so the index does not map the qualified name to
the record inserted first and no validation error is raised. -/
theorem duplicate_name_cex :
    dictGet? (build_indices [dupFramework]).function_index "civ:contract-valid?"
      = some (mkIndexed dupFramework dupFuncB)
  ∧ mkIndexed dupFramework dupFuncB ≠ mkIndexed dupFramework dupFuncA := by
  constructor
  · rfl
  · decide

/-- C1 (amended): on a qualified-name collision the build silently keeps
the last-seen record — byQualifiedName maps every qualified name to the
record processed LAST among those bearing it (plain dict overwrite,
last-write-wins, no error reported and no error channel exists) — and the
index never holds two entries for one qualified name. -/
theorem build_last_write_wins (fws : List Framework) (q : String) :
    dictGet? (build_indices fws).function_index q
      = (((pairs fws).filter (fun pf => qualifiedName pf.1 pf.2 == q)).getLast?).map
          (fun pf => mkIndexed pf.1 pf.2)
  ∧ ((build_indices fws).function_index.map Prod.fst).Nodup := by
  constructor
  · rw [build_indices_eq, fi_foldl_last]
    have : dictGet? initState.function_index q = none := rfl
    rw [this]
    cases (((pairs fws).filter (fun pf => qualifiedName pf.1 pf.2 == q)).getLast?).map
        (fun pf => mkIndexed pf.1 pf.2) with
    | none => rfl
    | some x => rfl
  · rw [build_indices_eq]
    exact fiKeys_nodup _ _ (by simp [initState])

/-! ## C2: direct inference-chain construction -/

lemma find?_split {α : Type} (f : α → Bool) :
    ∀ (l : List α) (p : α), l.find? f = some p →
      ∃ l₁ l₂, l = l₁ ++ p :: l₂ ∧ (∀ q ∈ l₁, f q = false) ∧ f p = true := by
  intro l
  induction l with
  | nil => intro p h; cases h
  | cons x rest ih =>
    intro p h
    cases hfx : f x with
    | true =>
      rw [List.find?_cons_of_pos _ hfx] at h
      obtain rfl : x = p := by injection h
      exact ⟨[], rest, rfl, by simp, hfx⟩
    | false =>
      rw [List.find?_cons_of_neg _ (by simp [hfx])] at h
      obtain ⟨l₁, l₂, heq, hall, hp⟩ := ih p h
      refine ⟨x :: l₁, l₂, by rw [heq]; rfl, ?_, hp⟩
      intro q hq
      rcases List.mem_cons.mp hq with rfl | hq'
      · exact hfx
      · exact hall q hq'

lemma find?_of_split {α : Type} (f : α → Bool) :
    ∀ (l₁ : List α) (p : α) (l₂ : List α), (∀ q ∈ l₁, f q = false) → f p = true →
      (l₁ ++ p :: l₂).find? f = some p := by
  intro l₁
  induction l₁ with
  | nil =>
    intro p l₂ _ hp
    exact List.find?_cons_of_pos _ hp
  | cons x rest ih =>
    intro p l₂ hall hp
    rw [List.cons_append,
      List.find?_cons_of_neg _ (by simp [hall x (List.mem_cons_self _ _)])]
    exact ih p l₂ (fun q hq => hall q (List.mem_cons_of_mem _ hq)) hp

/-- C2 counterexample: some record with local name x lists p among its
cross-references (framework bbb's), yet buildChain(p, x) returns no chain,
because the scan breaks at the FIRST record named x (framework aaa's),
which does not reference p. So success is not equivalent to the existence
of some matching record. -/
theorem build_inference_chain_cex :
    build_inference_chain (build_indices [shadowFwA, shadowFwB]) "p" "x" = none
  ∧ ((build_indices [shadowFwA, shadowFwB]).function_index.map Prod.snd).any
      (fun fd => fd.name == "x" && fd.cross_references.contains "p") = true := by
  constructor
  · rfl
  · rfl

/-- C2 (amended): buildChain(principleName, targetName) succeeds exactly
when the FIRST record in index insertion order whose local name equals
targetName lists principleName among its cross-references; on success the
chain is exactly the two-node chain of the principle node and that target
record, and otherwise the result is absent (no chain, never an error),
even if a later same-named record or an indirect path exists. -/
lemma build_inference_chain_eq_none {st : IndexState} {start tgt : String}
    (hfind : st.function_index.find? (fun p => p.2.name == tgt) = none) :
    build_inference_chain st start tgt = none := by
  unfold build_inference_chain
  rw [hfind]

lemma build_inference_chain_eq_found {st : IndexState} {start tgt : String}
    {p : String × IndexedFunc}
    (hfind : st.function_index.find? (fun p => p.2.name == tgt) = some p) :
    build_inference_chain st start tgt
      = if p.2.cross_references.contains start = true
          then some [ChainNode.principleNode start, ChainNode.ruleNode tgt p.2]
          else none := by
  unfold build_inference_chain
  rw [hfind]

theorem build_inference_chain_spec (st : IndexState) (start tgt : String) :
    ((build_inference_chain st start tgt).isSome = true ↔
      ∃ (l₁ : List (String × IndexedFunc)) (p : String × IndexedFunc)
        (l₂ : List (String × IndexedFunc)),
        st.function_index = l₁ ++ p :: l₂
        ∧ (∀ q ∈ l₁, q.2.name ≠ tgt)
        ∧ p.2.name = tgt ∧ start ∈ p.2.cross_references)
  ∧ (∀ c, build_inference_chain st start tgt = some c →
      ∃ fd : IndexedFunc, fd.name = tgt ∧ start ∈ fd.cross_references
        ∧ c = [ChainNode.principleNode start, ChainNode.ruleNode tgt fd]) := by
  constructor
  · constructor
    · intro h
      cases hfind : st.function_index.find? (fun p => p.2.name == tgt) with
      | none => rw [build_inference_chain_eq_none hfind] at h; cases h
      | some p =>
        rw [build_inference_chain_eq_found hfind] at h
        by_cases hc : p.2.cross_references.contains start = true
        · obtain ⟨l₁, l₂, heq, hall, hp⟩ := find?_split _ _ _ hfind
          refine ⟨l₁, p, l₂, heq, ?_, by rwa [beq_iff_eq] at hp, ?_⟩
          · intro q hq
            have hf := hall q hq
            rwa [beq_eq_false_iff_ne] at hf
          · exact List.mem_of_elem_eq_true hc
        · rw [if_neg hc] at h
          cases h
    · rintro ⟨l₁, p, l₂, heq, hall, hname, hstart⟩
      have hfind : st.function_index.find? (fun p => p.2.name == tgt) = some p := by
        rw [heq]
        apply find?_of_split
        · intro q hq
          rw [beq_eq_false_iff_ne]
          exact hall q hq
        · rw [beq_iff_eq]
          exact hname
      rw [build_inference_chain_eq_found hfind,
        if_pos (List.elem_eq_true_of_mem hstart)]
      rfl
  · intro c hc
    cases hfind : st.function_index.find? (fun p => p.2.name == tgt) with
    | none => rw [build_inference_chain_eq_none hfind] at hc; cases hc
    | some p =>
      rw [build_inference_chain_eq_found hfind] at hc
      by_cases hcont : p.2.cross_references.contains start = true
      · rw [if_pos hcont] at hc
        have hname := List.find?_some hfind
        rw [beq_iff_eq] at hname
        exact ⟨p.2, hname, List.mem_of_elem_eq_true hcont,
          by injection hc with h; exact h.symm⟩
      · rw [if_neg hcont] at hc
        cases hc

/-- Witness for C2 (amended): with only framework bbb indexed, the first
record named x references p, and buildChain(p, x) indeed succeeds. -/
theorem build_inference_chain_spec_witness :
    (build_inference_chain (build_indices [shadowFwB]) "p" "x").isSome = true :=
  (build_inference_chain_spec (build_indices [shadowFwB]) "p" "x").1.mpr
    ⟨[], ("bbb:x", mkIndexed shadowFwB
        { name := "x", docstring := "refs p", cross_references := ["p"],
          is_principle := false, file := "b.scm" }), [],
      by rfl, by simp, rfl, by simp [mkIndexed]⟩

/-! ## C4: reverse-index correctness of find_derived_rules -/

lemma dictSet_not_mem {α : Type} (d : List (String × α)) (k : String) (v : α)
    (h : k ∉ d.map Prod.fst) : dictSet d k v = d ++ [(k, v)] := by
  induction d with
  | nil => rfl
  | cons p rest ih =>
    obtain ⟨k', v'⟩ := p
    have hne : k' ≠ k := by
      intro he
      exact h (by rw [he]; exact List.mem_cons_self _ _)
    have hrest : k ∉ rest.map Prod.fst := fun hm => h (List.mem_cons_of_mem _ hm)
    simp [dictSet, hne, ih hrest]

lemma fi_build (L : List (Framework × Func)) :
    ∀ st : IndexState,
      ((st.function_index.map Prod.fst)
        ++ L.map (fun pf => qualifiedName pf.1 pf.2)).Nodup →
      (L.foldl stepPair st).function_index
        = st.function_index
          ++ L.map (fun pf => (qualifiedName pf.1 pf.2, mkIndexed pf.1 pf.2)) := by
  induction L with
  | nil => intro st _; simp
  | cons pf L ih =>
    intro st h
    rw [List.map_cons] at h
    have hnotmem : qualifiedName pf.1 pf.2 ∉ st.function_index.map Prod.fst := by
      rw [List.nodup_append] at h
      intro hm
      exact h.2.2 hm (List.mem_cons_self _ _)
    have hstep : (stepPair st pf).function_index
        = st.function_index ++ [(qualifiedName pf.1 pf.2, mkIndexed pf.1 pf.2)] := by
      rw [stepPair, indexFunc_fi, dictSet_not_mem _ _ _ hnotmem]
    have hkeys : ((stepPair st pf).function_index.map Prod.fst)
        = st.function_index.map Prod.fst ++ [qualifiedName pf.1 pf.2] := by
      rw [hstep, List.map_append]
      rfl
    rw [List.foldl_cons, ih (stepPair st pf) (by
      rw [hkeys, List.append_assoc, List.singleton_append]
      exact h), hstep, List.append_assoc, List.singleton_append, List.map_cons]

lemma cr_build (L : List (Framework × Func)) :
    ∀ (st : IndexState) (q : String),
      dictGetD ((L.foldl stepPair st).cross_references) q
        = dictGetD st.cross_references q
          ++ L.flatMap (fun pf =>
              List.replicate (pf.2.cross_references.count q) (qualifiedName pf.1 pf.2)) := by
  induction L with
  | nil => intro st q; simp
  | cons pf L ih =>
    intro st q
    rw [List.foldl_cons, ih]
    have hstep : dictGetD ((stepPair st pf).cross_references) q
        = dictGetD st.cross_references q
          ++ List.replicate (pf.2.cross_references.count q) (qualifiedName pf.1 pf.2) := by
      rw [stepPair, indexFunc_cr, keysFold]
    rw [hstep, List.flatMap_cons, List.append_assoc]

lemma dom_build (L : List (Framework × Func)) :
    ∀ (st : IndexState) (q : String),
      dictGetD ((L.foldl stepPair st).domain_index) q
        = dictGetD st.domain_index q
          ++ L.flatMap (fun pf =>
              List.replicate (pf.1.domains.count q) (qualifiedName pf.1 pf.2)) := by
  induction L with
  | nil => intro st q; simp
  | cons pf L ih =>
    intro st q
    rw [List.foldl_cons, ih]
    have hstep : dictGetD ((stepPair st pf).domain_index) q
        = dictGetD st.domain_index q
          ++ List.replicate (pf.1.domains.count q) (qualifiedName pf.1 pf.2) := by
      rw [stepPair, indexFunc_di, keysFold]
    rw [hstep, List.flatMap_cons, List.append_assoc]

lemma dictGet?_of_pairs (L : List (Framework × Func)) :
    ∀ pf0 : Framework × Func, pf0 ∈ L →
      (L.map (fun pf => qualifiedName pf.1 pf.2)).Nodup →
      dictGet? (L.map (fun pf => (qualifiedName pf.1 pf.2, mkIndexed pf.1 pf.2)))
          (qualifiedName pf0.1 pf0.2) = some (mkIndexed pf0.1 pf0.2) := by
  induction L with
  | nil => intro pf0 hmem; cases hmem
  | cons pf L ih =>
    intro pf0 hmem hnd
    rw [List.map_cons, List.nodup_cons] at hnd
    rcases List.mem_cons.mp hmem with rfl | hmem'
    · simp [dictGet?]
    · have hne : qualifiedName pf.1 pf.2 ≠ qualifiedName pf0.1 pf0.2 := by
        intro he
        exact hnd.1 (he ▸ List.mem_map_of_mem _ hmem')
      simp only [List.map_cons, dictGet?, if_neg hne]
      exact ih pf0 hmem' hnd.2

lemma filterMap_flatMap_list {α β γ : Type} (l : List α) (f : α → List β) (g : β → Option γ) :
    (l.flatMap f).filterMap g = l.flatMap (fun x => (f x).filterMap g) := by
  induction l with
  | nil => rfl
  | cons x xs ih => simp [List.flatMap_cons, List.filterMap_append, ih]

lemma filterMap_replicate_some {α β : Type} (n : Nat) (a : α) (g : α → Option β) (b : β)
    (h : g a = some b) : (List.replicate n a).filterMap g = List.replicate n b := by
  induction n with
  | zero => rfl
  | succ m ih => simp [List.replicate_succ, List.filterMap_cons, h, ih]

lemma flatMap_congr_mem {α β : Type} {l : List α} {f g : α → List β}
    (h : ∀ x ∈ l, f x = g x) : l.flatMap f = l.flatMap g := by
  induction l with
  | nil => rfl
  | cons x xs ih =>
    rw [List.flatMap_cons, List.flatMap_cons, h x (List.mem_cons_self _ _),
      ih (fun y hy => h y (List.mem_cons_of_mem _ hy))]

/-- C4: provided qualified names are unique (the spec's global-uniqueness
invariant on a valid corpus), rulesDerivedFrom(P) is exactly the reverse
index: it returns, in discovery order, one copy of each record per
occurrence of P in its cross-reference list, and a record appears in the
result if and only if it is in the corpus and lists P among its
cross-references. -/
theorem find_derived_rules_spec (fws : List Framework) (P : String)
    (h : (qualifiedNames fws).Nodup) :
    (find_derived_rules (build_indices fws) P
      = (pairs fws).flatMap (fun pf =>
          List.replicate (pf.2.cross_references.count P) (mkIndexed pf.1 pf.2)))
  ∧ (∀ r : IndexedFunc, r ∈ find_derived_rules (build_indices fws) P ↔
      (r ∈ allIndexed fws ∧ P ∈ r.cross_references)) := by
  have hnd : ((initState.function_index.map Prod.fst)
      ++ (pairs fws).map (fun pf => qualifiedName pf.1 pf.2)).Nodup := by
    simpa [initState] using h
  have hfi : ((pairs fws).foldl stepPair initState).function_index
      = (pairs fws).map (fun pf => (qualifiedName pf.1 pf.2, mkIndexed pf.1 pf.2)) := by
    rw [fi_build (pairs fws) initState hnd]
    rfl
  have hmain : find_derived_rules (build_indices fws) P
      = (pairs fws).flatMap (fun pf =>
          List.replicate (pf.2.cross_references.count P) (mkIndexed pf.1 pf.2)) := by
    unfold find_derived_rules
    rw [build_indices_eq, cr_build]
    have h0 : dictGetD initState.cross_references P = [] := rfl
    rw [h0, List.nil_append, hfi, filterMap_flatMap_list]
    apply flatMap_congr_mem
    intro pf hpf
    exact filterMap_replicate_some _ _ _ _ (dictGet?_of_pairs (pairs fws) pf hpf h)
  refine ⟨hmain, ?_⟩
  intro r
  rw [hmain]
  constructor
  · intro hr
    rw [List.mem_flatMap] at hr
    obtain ⟨pf, hpf, hrep⟩ := hr
    rw [List.mem_replicate] at hrep
    obtain ⟨hcnt, rfl⟩ := hrep
    refine ⟨List.mem_map_of_mem _ hpf, ?_⟩
    have hpos : 0 < pf.2.cross_references.count P := Nat.pos_of_ne_zero hcnt
    exact List.count_pos_iff.mp hpos
  · rintro ⟨hr, hP⟩
    rw [allIndexed] at hr
    obtain ⟨pf, hpf, rfl⟩ := List.mem_map.mp hr
    rw [List.mem_flatMap]
    refine ⟨pf, hpf, List.mem_replicate.mpr ⟨?_, rfl⟩⟩
    exact Nat.pos_iff_ne_zero.mp (List.count_pos_iff.mpr hP)

/-- Witness for C4 on the concrete two-framework corpus. -/
theorem find_derived_rules_spec_witness :
    (qualifiedNames [wFw1, wFw2]).Nodup
  ∧ find_derived_rules (build_indices [wFw1, wFw2]) "pacta-sunt-servanda"
      = (pairs [wFw1, wFw2]).flatMap (fun pf =>
          List.replicate (pf.2.cross_references.count "pacta-sunt-servanda")
            (mkIndexed pf.1 pf.2)) :=
  ⟨by decide, (find_derived_rules_spec [wFw1, wFw2] "pacta-sunt-servanda" (by decide)).1⟩

/-! ## C6: keyword search matching and stable relevance ranking -/

lemma str_lower_eq_toLower (s : String) : str_lower s = s.toLower := by
  rw [String.toLower, String.map_eq]
  rfl

lemma foldl_append_toList {α β : Type} (g : α → Option β) (l : List α) :
    ∀ acc : List β,
      l.foldl (fun res x => res ++ (g x).toList) acc = acc ++ l.filterMap g := by
  induction l with
  | nil => intro acc; simp
  | cons x xs ih =>
    intro acc
    rw [List.foldl_cons, ih]
    cases hg : g x with
    | none => simp [List.filterMap_cons, hg]
    | some b => simp [List.filterMap_cons, hg]

lemma insertStable_append {α : Type} (key : α → Nat) (x : α) (l₁ l₂ : List α)
    (h : ∀ y ∈ l₁, key y < key x) :
    insertStable key x (l₁ ++ l₂) = l₁ ++ insertStable key x l₂ := by
  induction l₁ with
  | nil => rfl
  | cons y ys ih =>
    rw [List.cons_append]
    simp only [insertStable, if_pos (h y (List.mem_cons_self _ _))]
    rw [ih (fun z hz => h z (List.mem_cons_of_mem _ hz))]
    rfl

lemma insertStable_front {α : Type} (key : α → Nat) (x : α) (l : List α)
    (h : ∀ y ∈ l, ¬(key y < key x)) :
    insertStable key x l = x :: l := by
  cases l with
  | nil => rfl
  | cons y ys => simp [insertStable, h y (List.mem_cons_self _ _)]

lemma sortByKey_eq_filters {α : Type} (key : α → Nat) (l : List α)
    (hb : ∀ x ∈ l, key x ≤ 2) :
    sortByKey key l
      = l.filter (fun x => key x == 0) ++ l.filter (fun x => key x == 1)
        ++ l.filter (fun x => key x == 2) := by
  induction l with
  | nil => rfl
  | cons x xs ih =>
    have hx : key x ≤ 2 := hb x (List.mem_cons_self _ _)
    have ihh := ih (fun y hy => hb y (List.mem_cons_of_mem _ hy))
    have h0 : ∀ y ∈ xs.filter (fun y => key y == 0), key y = 0 := by
      intro y hy
      have := (List.mem_filter.mp hy).2
      exact beq_iff_eq.mp this
    have h1 : ∀ y ∈ xs.filter (fun y => key y == 1), key y = 1 := by
      intro y hy
      have := (List.mem_filter.mp hy).2
      exact beq_iff_eq.mp this
    have h2 : ∀ y ∈ xs.filter (fun y => key y == 2), key y = 2 := by
      intro y hy
      have := (List.mem_filter.mp hy).2
      exact beq_iff_eq.mp this
    show insertStable key x (sortByKey key xs) = _
    rw [ihh]
    have hcase : key x = 0 ∨ key x = 1 ∨ key x = 2 := by omega
    rcases hcase with h | h | h
    · rw [insertStable_front key x _ (by
        intro y hy
        omega)]
      simp [List.filter_cons, h]
    · rw [List.append_assoc,
        insertStable_append key x _ _ (by
          intro y hy
          have := h0 y hy
          omega),
        insertStable_front key x _ (by
          intro y hy
          rcases List.mem_append.mp hy with hy' | hy'
          · have := h1 y hy'
            omega
          · have := h2 y hy'
            omega)]
      simp [List.filter_cons, h]
    · rw [insertStable_append key x _ _ (by
          intro y hy
          rcases List.mem_append.mp hy with hy' | hy'
          · have := h0 y hy'
            omega
          · have := h1 y hy'
            omega),
        insertStable_front key x _ (by
          intro y hy
          have := h2 y hy
          omega)]
      simp [List.filter_cons, h, List.append_assoc]

lemma searchEntry_relevance {fws : List Framework} {ql : String} {dom : Option String}
    {fd : IndexedFunc} {r : SearchResult}
    (h : searchEntry fws ql dom fd = some r) :
    r.func = fd
    ∧ (r.relevance = "exact" ∨ r.relevance = "partial" ∨ r.relevance = "description") := by
  simp only [searchEntry] at h
  split at h
  · cases h
  · split at h
    · obtain rfl : _ = r := by injection h
      constructor
      · rfl
      · by_cases hq : ql == str_lower fd.name
        · left
          simp [hq]
        · right
          left
          simp [hq]
    · split at h
      · obtain rfl : _ = r := by injection h
        exact ⟨rfl, Or.inr (Or.inr rfl)⟩
      · cases h

/-- C6 counterexample: with the empty-string domain filter supplied, the
indexed record of framework civ — whose framework declares only the domain
contract, not the empty string — is still returned as an exact match.
Python's truthiness guard skips the domain restriction entirely for an
empty filter, so the supplied filter does not restrict candidates to
records whose framework declares that domain, refuting the claim at
domainFilter = "". -/
theorem search_domain_cex :
    search_functions [wFw2] (build_indices [wFw2]) "contract-valid?" (some "")
      = [{ relevance := "exact",
           func := { framework := "civ", framework_name := "Civil Law (ZA)",
                     name := "contract-valid?", docstring := "validity of a contract",
                     cross_references := ["pacta-sunt-servanda"], is_principle := false,
                     file := "contract.scm" } }]
  ∧ wFw2.domains.contains "" = false := by
  constructor
  · decide
  · decide

/-- C6 (amended): searchByKeyword collects, in index insertion order,
exactly the records passing the domain filter — which restricts candidates
to records whose framework declares the domain only when the supplied
filter is NON-EMPTY, a supplied empty-string filter being skipped exactly
like an omitted one (Python truthiness) — for which the lowercased query
is a substring of the lowercased local name (tagged exact on full
equality, else partial) or else of the lowercased docstring (tagged
description), and returns all exact matches, then all partial matches,
then all description matches, each group preserving index insertion order
(the stable sort by relevance rank). -/
theorem search_functions_spec (fws : List Framework) (st : IndexState)
    (query : String) (domain : Option String) :
    (search_functions fws st query domain
      = (st.function_index.filterMap
            (fun p => searchEntry fws (str_lower query) domain p.2)).filter
          (fun r => r.relevance == "exact")
        ++ (st.function_index.filterMap
            (fun p => searchEntry fws (str_lower query) domain p.2)).filter
          (fun r => r.relevance == "partial")
        ++ (st.function_index.filterMap
            (fun p => searchEntry fws (str_lower query) domain p.2)).filter
          (fun r => r.relevance == "description"))
  ∧ search_functions fws st query (some "") = search_functions fws st query none := by
  constructor
  · show sortByKey (fun r => relevance_order r.relevance)
        (st.function_index.foldl
          (fun results p => results ++ (searchEntry fws (str_lower query) domain p.2).toList) [])
      = _
    rw [foldl_append_toList (fun p => searchEntry fws (str_lower query) domain p.2)
      st.function_index []]
    rw [List.nil_append]
    have hb : ∀ r ∈ st.function_index.filterMap
        (fun p => searchEntry fws (str_lower query) domain p.2),
        relevance_order r.relevance ≤ 2 := by
      intro r hr
      obtain ⟨p, _, hp⟩ := List.mem_filterMap.mp hr
      rcases (searchEntry_relevance hp).2 with h | h | h <;> simp [relevance_order, h]
    rw [sortByKey_eq_filters _ _ hb]
    have e0 : (st.function_index.filterMap
          (fun p => searchEntry fws (str_lower query) domain p.2)).filter
          (fun r => relevance_order r.relevance == 0)
        = (st.function_index.filterMap
            (fun p => searchEntry fws (str_lower query) domain p.2)).filter
            (fun r => r.relevance == "exact") := by
      apply List.filter_congr
      intro r hr
      obtain ⟨p, _, hp⟩ := List.mem_filterMap.mp hr
      rcases (searchEntry_relevance hp).2 with h | h | h <;> simp [relevance_order, h]
    have e1 : (st.function_index.filterMap
          (fun p => searchEntry fws (str_lower query) domain p.2)).filter
          (fun r => relevance_order r.relevance == 1)
        = (st.function_index.filterMap
            (fun p => searchEntry fws (str_lower query) domain p.2)).filter
            (fun r => r.relevance == "partial") := by
      apply List.filter_congr
      intro r hr
      obtain ⟨p, _, hp⟩ := List.mem_filterMap.mp hr
      rcases (searchEntry_relevance hp).2 with h | h | h <;> simp [relevance_order, h]
    have e2 : (st.function_index.filterMap
          (fun p => searchEntry fws (str_lower query) domain p.2)).filter
          (fun r => relevance_order r.relevance == 2)
        = (st.function_index.filterMap
            (fun p => searchEntry fws (str_lower query) domain p.2)).filter
            (fun r => r.relevance == "description") := by
      apply List.filter_congr
      intro r hr
      obtain ⟨p, _, hp⟩ := List.mem_filterMap.mp hr
      rcases (searchEntry_relevance hp).2 with h | h | h <;> simp [relevance_order, h]
    rw [e0, e1, e2]
  · rfl

/-! ## C7: principles referenced by a domain -/

lemma principleStep_eq (st : IndexState) (dfs : List String)
    (acc : List PrincipleSummary) (p : String × PrincipleEntry) :
    principleStep st dfs acc p
      = if referencedPred st dfs p.1 && !((acc.map PrincipleSummary.name).contains p.1)
          then acc ++ [⟨p.1, p.2.framework, p.2.docstring, p.2.file⟩]
          else acc := rfl

lemma fold_principleStep_names (st : IndexState) (dfs : List String) :
    ∀ (es : List (String × PrincipleEntry)) (acc : List PrincipleSummary),
      (es.map Prod.fst).Nodup →
      (∀ k ∈ es.map Prod.fst, k ∉ acc.map PrincipleSummary.name) →
      ((es.foldl (principleStep st dfs) acc).map PrincipleSummary.name)
        = acc.map PrincipleSummary.name
          ++ (es.map Prod.fst).filter (referencedPred st dfs) := by
  intro es
  induction es with
  | nil => intro acc _ _; simp
  | cons e es ih =>
    intro acc hnd hdisj
    obtain ⟨k, v⟩ := e
    rw [List.map_cons, List.nodup_cons] at hnd
    have hk_acc : k ∉ acc.map PrincipleSummary.name :=
      hdisj k (by rw [List.map_cons]; exact List.mem_cons_self _ _)
    have hdisj' : ∀ k' ∈ es.map Prod.fst, k' ∉ acc.map PrincipleSummary.name :=
      fun k' hk' => hdisj k' (by rw [List.map_cons]; exact List.mem_cons_of_mem _ hk')
    rw [List.foldl_cons]
    cases hp : referencedPred st dfs k with
    | true =>
      have hcontains : ((acc.map PrincipleSummary.name).contains k) = false := by
        cases hc : (acc.map PrincipleSummary.name).contains k with
        | true => exact absurd (List.mem_of_elem_eq_true hc) hk_acc
        | false => rfl
      have hstep : principleStep st dfs acc (k, v)
          = acc ++ [⟨k, v.framework, v.docstring, v.file⟩] := by
        rw [principleStep_eq, hp, hcontains]
        rfl
      have hd : ∀ k' ∈ es.map Prod.fst,
          k' ∉ (acc ++ [(⟨k, v.framework, v.docstring, v.file⟩ : PrincipleSummary)]).map
            PrincipleSummary.name := by
        intro k' hk' hmem
        rw [List.map_append] at hmem
        rcases List.mem_append.mp hmem with hm | hm
        · exact hdisj' k' hk' hm
        · have he : k' = k := by simpa using hm
          exact hnd.1 (he ▸ hk')
      rw [hstep, ih _ hnd.2 hd, List.map_append]
      simp [List.filter_cons, hp, List.append_assoc]
    | false =>
      have hstep : principleStep st dfs acc (k, v) = acc := by
        rw [principleStep_eq, hp]
        rfl
      rw [hstep, ih acc hnd.2 hdisj']
      simp [List.filter_cons, hp]

lemma pi_keys (L : List (Framework × Func)) :
    ∀ st : IndexState,
      ((L.foldl stepPair st).principle_index.map Prod.fst)
        = firstSeenFrom (st.principle_index.map Prod.fst)
            ((L.filter (fun pf => pf.2.is_principle || pf.1.level == 1)).map
              (fun pf => pf.2.name)) := by
  induction L with
  | nil => intro st; rfl
  | cons pf L ih =>
    intro st
    rw [List.foldl_cons, ih]
    cases hc : (pf.2.is_principle || pf.1.level == 1) with
    | true =>
      have hpi : (stepPair st pf).principle_index
          = dictSet st.principle_index pf.2.name (mkPrincipleEntry pf.1 pf.2) := by
        rw [stepPair, indexFunc_pi, if_pos hc]
      have hfc : (pf :: L).filter (fun pf => pf.2.is_principle || pf.1.level == 1)
          = pf :: L.filter (fun pf => pf.2.is_principle || pf.1.level == 1) := by
        rw [List.filter_cons, if_pos hc]
      rw [hpi, keys_dictSet, hfc, List.map_cons]
      rfl
    | false =>
      have hpi : (stepPair st pf).principle_index = st.principle_index := by
        rw [stepPair, indexFunc_pi, if_neg (by simp [hc])]
      have hfc : (pf :: L).filter (fun pf => pf.2.is_principle || pf.1.level == 1)
          = L.filter (fun pf => pf.2.is_principle || pf.1.level == 1) := by
        rw [List.filter_cons, if_neg (by simp [hc])]
      rw [hpi, hfc]

lemma firstSeenFrom_nodup (ns : List String) :
    ∀ acc : List String, acc.Nodup → (firstSeenFrom acc ns).Nodup := by
  induction ns with
  | nil => intro acc h; exact h
  | cons x ns ih =>
    intro acc h
    show (firstSeenFrom (if acc.contains x then acc else acc ++ [x]) ns).Nodup
    apply ih
    by_cases hc : acc.contains x = true
    · rw [if_pos hc]
      exact h
    · rw [if_neg hc]
      refine nodup_append_singleton.mpr ⟨h, ?_⟩
      intro hm
      exact hc (List.elem_eq_true_of_mem hm)

lemma any_flatMap {α β : Type} (l : List α) (f : α → List β) (p : β → Bool) :
    (l.flatMap f).any p = l.any (fun x => (f x).any p) := by
  induction l with
  | nil => rfl
  | cons x xs ih => simp [List.flatMap_cons, List.any_append, ih]

lemma any_replicate {α : Type} (n : Nat) (a : α) (p : α → Bool) :
    (List.replicate n a).any p = ((decide (n ≠ 0)) && p a) := by
  induction n with
  | zero => simp
  | succ m ih =>
    rw [List.replicate_succ, List.any_cons, ih]
    cases hpa : p a <;> simp [hpa]

lemma any_congr_mem {α : Type} {l : List α} {f g : α → Bool}
    (h : ∀ x ∈ l, f x = g x) : l.any f = l.any g := by
  induction l with
  | nil => rfl
  | cons x xs ih =>
    rw [List.any_cons, List.any_cons, h x (List.mem_cons_self _ _),
      ih (fun y hy => h y (List.mem_cons_of_mem _ hy))]

lemma any_filterMap {α β : Type} (l : List α) (f : α → Option β) (p : β → Bool) :
    (l.filterMap f).any p
      = l.any (fun x => match f x with | some y => p y | none => false) := by
  induction l with
  | nil => rfl
  | cons x xs ih =>
    rw [List.filterMap_cons]
    cases hf : f x with
    | none => simp [hf, ih]
    | some b => simp [hf, ih]

lemma count_ne_zero_contains (l : List String) (a : String) :
    (decide (l.count a ≠ 0)) = l.contains a := by
  by_cases hm : a ∈ l
  · have h1 : l.contains a = true := List.elem_eq_true_of_mem hm
    have h2 : l.count a ≠ 0 := Nat.pos_iff_ne_zero.mp (List.count_pos_iff.mpr hm)
    simp [h1, h2, hm]
  · have h1 : l.contains a = false := by
      cases hc : l.contains a with
      | true => exact absurd (List.mem_of_elem_eq_true hc) hm
      | false => rfl
    have h2 : l.count a = 0 := List.count_eq_zero.mpr hm
    simp [h1, h2, hm]

lemma referencedPred_build (fws : List Framework) (dom : String)
    (h : (qualifiedNames fws).Nodup) (k : String) :
    referencedPred (build_indices fws) (dictGetD (build_indices fws).domain_index dom) k
      = (recordsInDomain fws dom).any (fun r => r.cross_references.contains k) := by
  have hfi : ((pairs fws).foldl stepPair initState).function_index
      = (pairs fws).map (fun pf => (qualifiedName pf.1 pf.2, mkIndexed pf.1 pf.2)) := by
    rw [fi_build (pairs fws) initState (by simpa [initState] using h)]
    rfl
  have hdom : dictGetD (build_indices fws).domain_index dom
      = (pairs fws).flatMap (fun pf =>
          List.replicate (pf.1.domains.count dom) (qualifiedName pf.1 pf.2)) := by
    rw [build_indices_eq, dom_build]
    rfl
  unfold referencedPred
  rw [hdom, any_flatMap]
  have hstep : ∀ pf ∈ pairs fws,
      (List.replicate (pf.1.domains.count dom) (qualifiedName pf.1 pf.2)).any
        (fun func_name =>
          match dictGet? (build_indices fws).function_index func_name with
          | some f => f.cross_references.contains k
          | none => false)
      = ((pf.1.domains.contains dom) && ((mkIndexed pf.1 pf.2).cross_references.contains k)) := by
    intro pf hpf
    rw [any_replicate, count_ne_zero_contains]
    have hget : dictGet? (build_indices fws).function_index (qualifiedName pf.1 pf.2)
        = some (mkIndexed pf.1 pf.2) := by
      rw [build_indices_eq, hfi]
      exact dictGet?_of_pairs (pairs fws) pf hpf h
    rw [hget]
  rw [any_congr_mem hstep]
  unfold recordsInDomain
  rw [any_filterMap]
  apply any_congr_mem
  intro pf _
  cases hc : pf.1.domains.contains dom <;> simp [hc]

/-- C7: provided qualified names are unique (the spec's global-uniqueness
invariant on a valid corpus), principlesForDomain returns exactly the
principle names referenced by at least one record indexed under the domain
— each such name exactly once (the returned name list has no duplicates),
in first-seen principle order, and no principle unreferenced by every
record of the domain appears. -/
theorem find_principles_by_domain_spec (fws : List Framework) (dom : String)
    (h : (qualifiedNames fws).Nodup) :
    ((find_principles_by_domain (build_indices fws) dom).map PrincipleSummary.name
      = (firstSeen (principleLocalNames fws)).filter
          (fun p => (recordsInDomain fws dom).any (fun r => r.cross_references.contains p)))
  ∧ ((find_principles_by_domain (build_indices fws) dom).map
      PrincipleSummary.name).Nodup := by
  have hkeys : (build_indices fws).principle_index.map Prod.fst
      = firstSeen (principleLocalNames fws) := by
    rw [build_indices_eq, pi_keys]
    rfl
  have hnodup_keys : ((build_indices fws).principle_index.map Prod.fst).Nodup := by
    rw [hkeys]
    exact firstSeenFrom_nodup _ [] (by simp)
  have hfold := fold_principleStep_names (build_indices fws)
    (dictGetD (build_indices fws).domain_index dom)
    ((build_indices fws).principle_index) [] hnodup_keys (by simp)
  have hbody : (find_principles_by_domain (build_indices fws) dom).map
      PrincipleSummary.name
      = ((build_indices fws).principle_index.map Prod.fst).filter
          (referencedPred (build_indices fws)
            (dictGetD (build_indices fws).domain_index dom)) := by
    show (((build_indices fws).principle_index.foldl
        (principleStep (build_indices fws)
          (dictGetD (build_indices fws).domain_index dom)) []).map
        PrincipleSummary.name) = _
    rw [hfold]
    simp
  constructor
  · rw [hbody, hkeys]
    exact List.filter_congr (fun k _ => referencedPred_build fws dom h k)
  · rw [hbody]
    exact hnodup_keys.filter _

/-- Witness for C7 on the concrete two-framework corpus: the contract
domain's only referenced principle is pacta-sunt-servanda. -/
theorem find_principles_by_domain_spec_witness :
    (qualifiedNames [wFw1, wFw2]).Nodup
  ∧ (find_principles_by_domain (build_indices [wFw1, wFw2]) "contract").map
      PrincipleSummary.name
      = (firstSeen (principleLocalNames [wFw1, wFw2])).filter
          (fun p => (recordsInDomain [wFw1, wFw2] "contract").any
            (fun r => r.cross_references.contains p)) :=
  ⟨by decide, (find_principles_by_domain_spec [wFw1, wFw2] "contract" (by decide)).1⟩

end ChainLex
